import Mathlib

/-!
Shallow embedding of `src/BaseRepository.ts` (cubos/node-kysely-repository).

The repository class wraps a Kysely connection for one SQL table whose rows
always carry `id : string`, `createdAt : Date`, `updatedAt : Date` plus the
caller-defined columns.  We model:

* a row as a structure holding the three mandatory columns (`Date`s become
  `Nat` millisecond timestamps, as in `Date#getTime`) and an association
  list of the remaining (non-null) user columns, each valued in `String`;
* a table as the list of its rows in storage order (the order Postgres
  returns them for the plain `SELECT *` the class issues, and the order
  `RETURNING *` yields for inserts);
* the `Filter` argument (`Partial<Omit<T, "createdAt" | "updatedAt">>`,
  every pair ANDed as `WHERE key = value`) as a list of key/value pairs,
  and the escape-hatch callback (which installs extra WHERE clauses on the
  in-progress query) as the row predicate it induces;
* `new Date()` results are passed in explicitly as a `now : Nat` argument,
  and `randomUUID()` results as explicit `gen`/`gens` arguments, since the
  TypeScript methods read the clock / RNG exactly once (or once per batch
  element) at the positions shown in the source.
-/

namespace KyselyRepo

/-- A persisted row: the three mandatory `BaseModel` columns plus the
user-defined columns as an association list keyed by column name. -/
structure Row where
  id : String
  createdAt : Nat
  updatedAt : Nat
  fields : List (String × String)
deriving Repr, DecidableEq

/-- A table state: rows in storage order. -/
abbrev Table := List Row

/-- Reading a filterable column of a row: `id` is a real column; the
user columns live in `fields` (absent key = SQL NULL).  `createdAt` and
`updatedAt` are excluded from `Filter` by the TypeScript types. -/
def Row.col (r : Row) (k : String) : Option String :=
  if k = "id" then some r.id else r.fields.lookup k

/-- The `id` position of an `Insert<T>` object.  TypeScript distinguishes a
missing `id` key (`absent`), a present key holding `undefined` (`undef`),
and a present string (`given`); the spread `{ id: randomUUID(), ...item }`
treats the three differently. -/
inductive IdField where
  | absent
  | undef
  | given (s : String)
deriving Repr, DecidableEq

/-- An `Insert<Database[TableName]>` argument: optional `id` plus the
user-column values. -/
structure InsertItem where
  idField : IdField
  fields : List (String × String)
deriving Repr, DecidableEq

/-- An `Update<Database[TableName]>` argument: the target `id` plus the
(partial) user-column values to set.  The TypeScript type omits
`createdAt`/`updatedAt`, so no timestamp can be supplied. -/
structure UpdateItem where
  id : String
  fields : List (String × String)
deriving Repr, DecidableEq

/-- A `condition` argument: either the exact-match mapping (each pair
becomes `WHERE key = value`, all ANDed; the empty mapping filters nothing)
or the callback escape hatch, modelled by the row predicate the extra
WHERE clauses it installs amount to. -/
inductive Cond where
  | exact (pairs : List (String × String))
  | pred (p : Row → Bool)

/-- Whether a row satisfies a condition. -/
def Cond.matches : Cond → Row → Bool
  | .exact pairs, r => pairs.all fun kv => r.col kv.1 = some kv.2
  | .pred p, r => p r

/-- The id actually inserted by `{ id: randomUUID(), ...item, ... }`:
the generated UUID survives only when the spread of `item` carries no `id`
key at all; a present-but-`undefined` `id` overrides it with `undefined`,
so the row reaches the INSERT with no id value (`none`). -/
def resolveId (gen : String) : IdField → Option String
  | .absent => some gen
  | .undef => none
  | .given s => some s

/-- The row built by the insert's values object, when it has an id.
Both timestamps are the single `now` of the call. -/
def mkRow (now : Nat) (gen : String) (item : InsertItem) : Option Row :=
  (resolveId gen item.idField).map fun i =>
    { id := i, createdAt := now, updatedAt := now, fields := item.fields }

/-- `insert`: appends the built row and returns it (`RETURNING *`,
first row).  `none` models the failing INSERT of a row that reaches the
database without an id (`id` is a primary key with no default). -/
def insert (t : Table) (gen : String) (now : Nat) (item : InsertItem) :
    Option (Row × Table) :=
  (mkRow now gen item).map fun r => (r, t ++ [r])

/-- The rows built by `insertAll`'s `items.map(...)`: one generated UUID
per element (consumed from `gens` in order), one shared `now`. -/
def mkRows (now : Nat) : List String → List InsertItem → Option (List Row)
  | _, [] => some []
  | [], _ :: _ => none
  | g :: gs, it :: its => do
    let r ← mkRow now g it
    let rs ← mkRows now gs its
    pure (r :: rs)

/-- `insertAll`: appends the batch and returns it in input order. -/
def insertAll (t : Table) (gens : List String) (now : Nat)
    (items : List InsertItem) : Option (List Row × Table) :=
  (mkRows now gens items).map fun rs => (rs, t ++ rs)

/-- `findAll`: `SELECT *`, every row in storage order. -/
def findAll (t : Table) : List Row := t

/-- `findBy`: the WHERE clauses keep exactly the matching rows. -/
def findBy (t : Table) (c : Cond) : List Row := t.filter c.matches

/-- `findOneBy`: `executeTakeFirst` on the same query — first match or
`undefined` (here `none`). -/
def findOneBy (t : Table) (c : Cond) : Option Row := (t.filter c.matches).head?

/-- `count`: the `COUNT(*)` query returns the number of matching rows (as
a decimal string which `parseInt` decodes back; the round-trip is the
identity, so we keep the number). -/
def count (t : Table) (c : Cond) : Nat := (t.filter c.matches).length

/-- `get`: `WHERE id = ...`, `executeTakeFirst`. -/
def get (t : Table) (i : String) : Option Row := t.find? fun r => r.id = i

/-- The result object of `findAllPaginated`. -/
structure Paginated where
  data : List Row
  page : Nat
  pageCount : Nat
  pageSize : Nat
  rowCount : Nat
deriving Repr, DecidableEq

/-- `findAllPaginated`: counts first, then re-runs the filtered select with
`LIMIT pageSize OFFSET (page - 1) * pageSize`.  `Math.ceil(rowCount /
pageSize)` is `(rowCount + pageSize - 1) / pageSize` over `Nat` (exact for
`pageSize ≥ 1`). -/
def findAllPaginated (t : Table) (page pageSize : Nat) (c : Cond) :
    Paginated :=
  let rowCount := count t c
  let result := ((t.filter c.matches).drop ((page - 1) * pageSize)).take pageSize
  { data := result, page := page,
    pageCount := (rowCount + pageSize - 1) / pageSize,
    pageSize := pageSize, rowCount := rowCount }

/-- The row produced by `UPDATE ... SET id = item.id, <fields>,
updatedAt = now` on one matching row: `createdAt` is not in the SET list,
each supplied column takes the supplied value (a column the row did not
have — SQL NULL — becomes present), the rest keep their values. -/
def updateRow (now : Nat) (u : UpdateItem) (r : Row) : Row :=
  { id := u.id, createdAt := r.createdAt, updatedAt := now,
    fields :=
      (r.fields.map fun p =>
        match u.fields.lookup p.1 with
        | some v => (p.1, v)
        | none => p)
      ++ u.fields.filter fun kv => ¬ r.fields.any fun p => p.1 = kv.1 }

/-- `update`: rewrites every row whose id matches and returns the first
returned row (`executeTakeFirstOrThrow`); `none` in the first component is
the `NoResultError` thrown when the UPDATE touched no row. -/
def update (t : Table) (now : Nat) (u : UpdateItem) : Option Row × Table :=
  let rewritten := t.map fun r => if r.id = u.id then updateRow now u r else r
  (rewritten.find? fun r => r.id = u.id, rewritten)

/-- `delete`: removes every row whose id matches and returns the first
pre-deletion snapshot (`RETURNING *` + `executeTakeFirstOrThrow`); `none`
is the `NoResultError` when nothing matched. -/
def delete (t : Table) (i : String) : Option Row × Table :=
  ((t.filter fun r => r.id = i).head?, t.filter fun r => ¬ r.id = i)

/-- `deleteBy`: removes every row matching the condition and returns all
pre-deletion snapshots, in storage order; an empty list is a normal
result, not an error. -/
def deleteBy (t : Table) (c : Cond) : List Row × Table :=
  (t.filter c.matches, t.filter fun r => ¬ c.matches r)

/-- `truncate`: `DELETE FROM` with no WHERE clause — no row survives. -/
def truncate (t : Table) : Table := t.filter fun _ => false

end KyselyRepo

namespace KyselyRepo

/-- A sample table shared by the concrete witnesses below. -/
def exTable : Table :=
  [⟨"a", 1, 1, [("name", "foo")]⟩, ⟨"b", 1, 2, [("name", "bar")]⟩,
   ⟨"c", 2, 2, [("name", "foo")]⟩]

/-- Claim C6: for every table state and every filter (including the empty
exact-match mapping, which matches all rows), `count` equals the length of
the sequence returned by `findBy`. -/
theorem count_eq_length_findBy (t : Table) (c : Cond) :
    count t c = (findBy t c).length ∧
    count t (Cond.exact []) = (findAll t).length := by
  refine ⟨rfl, ?_⟩
  simp [count, Cond.matches, findAll]

/-- Claim C9: after `truncate` the table has no rows: `findAll` returns the
empty sequence and `count` with the match-all condition returns 0. -/
theorem truncate_empties (t : Table) :
    findAll (truncate t) = [] ∧ count (truncate t) (Cond.exact []) = 0 := by
  simp [findAll, truncate, count]

/-- Claim C10: `insert` uses the fresh UUID only when the `id` key is
entirely absent from the item; an `id` key holding `undefined` overrides
the generated UUID in the spread, so the repository assigns no id for that
insert (and the INSERT cannot produce a row). -/
theorem insert_id_keyed_on_presence (t : Table) (gen : String) (now : Nat)
    (fs : List (String × String)) :
    resolveId gen IdField.undef = none ∧
    insert t gen now ⟨IdField.undef, fs⟩ = none ∧
    resolveId gen IdField.absent = some gen ∧
    insert t gen now ⟨IdField.absent, fs⟩ =
      some (⟨gen, now, now, fs⟩, t ++ [⟨gen, now, now, fs⟩]) :=
  ⟨rfl, rfl, rfl, rfl⟩

/-- Claim C4: whenever `insert` returns a record, that record is the
persisted one (appended to the table), it carries the caller-supplied id
when one was supplied and the freshly generated UUID when the id key was
absent, and both its timestamps are the single `now` of the call, so
`createdAt = updatedAt` immediately after insert. -/
theorem insert_returns_persisted (t : Table) (gen : String) (now : Nat)
    (item : InsertItem) (r : Row) (t' : Table)
    (h : insert t gen now item = some (r, t')) :
    r.createdAt = now ∧ r.updatedAt = now ∧ r.createdAt = r.updatedAt ∧
    r.fields = item.fields ∧ t' = t ++ [r] ∧
    (item.idField = IdField.absent → r.id = gen) ∧
    (∀ s, item.idField = IdField.given s → r.id = s) := by
  obtain ⟨idf, fs⟩ := item
  cases idf <;> simp [insert, mkRow, resolveId] at h
  · obtain ⟨h1, h2⟩ := h
    subst h1; subst h2
    simp
  · obtain ⟨h1, h2⟩ := h
    subst h1; subst h2
    simp

/-- Concrete instantiation of `insert_returns_persisted`. -/
theorem insert_returns_persisted_witness :
    Row.createdAt ⟨"u", 7, 7, [("name", "x")]⟩ = 7 ∧
    Row.id ⟨"u", 7, 7, [("name", "x")]⟩ = "u" := by
  have h := insert_returns_persisted [] "u" 7 ⟨IdField.absent, [("name", "x")]⟩
    ⟨"u", 7, 7, [("name", "x")]⟩ [⟨"u", 7, 7, [("name", "x")]⟩] (by decide)
  exact ⟨h.1, h.2.2.2.2.2.1 rfl⟩

/-- Claim C8: `deleteBy` removes exactly the matching rows (the surviving
table is the non-matching rows, in order, as `findAll` then reports),
returns the pre-deletion snapshots of exactly the removed rows, and
returns the empty sequence — not an error — when nothing matches. -/
theorem deleteBy_removes_exactly_matching (t : Table) (c : Cond) :
    (deleteBy t c).1 = findBy t c ∧
    (∀ r ∈ (deleteBy t c).1, c.matches r = true) ∧
    findAll (deleteBy t c).2 = t.filter (fun r => ¬ c.matches r) ∧
    (∀ r ∈ (deleteBy t c).2, c.matches r = false) ∧
    ((∀ r ∈ t, c.matches r = false) →
      (deleteBy t c).1 = [] ∧ (deleteBy t c).2 = t) := by
  refine ⟨rfl, ?_, rfl, ?_, ?_⟩
  · intro r hr
    exact (List.mem_filter.mp hr).2
  · intro r hr
    have := (List.mem_filter.mp hr).2
    simpa using this
  · intro hall
    constructor
    · simp only [deleteBy, List.filter_eq_nil_iff]
      intro r hr
      simp [hall r hr]
    · simp only [deleteBy, List.filter_eq_self]
      intro r hr
      simp [hall r hr]

/-- Concrete instantiation of `deleteBy_removes_exactly_matching`. -/
theorem deleteBy_removes_exactly_matching_witness :
    (deleteBy exTable (Cond.exact [("name", "qq")])).1 = [] ∧
    (deleteBy exTable (Cond.exact [("name", "qq")])).2 = exTable :=
  (deleteBy_removes_exactly_matching exTable (Cond.exact [("name", "qq")])).2.2.2.2
    (by decide)

end KyselyRepo

namespace KyselyRepo

theorem updateRow_id (now : Nat) (u : UpdateItem) (r : Row) :
    (updateRow now u r).id = u.id := rfl

theorem update_fst_eq (t : Table) (now : Nat) (u : UpdateItem) :
    (update t now u).1 = (get t u.id).map (updateRow now u) := by
  induction t with
  | nil => rfl
  | cons r t ih =>
    by_cases h : r.id = u.id
    · simp [update, get, List.find?_cons, h, updateRow_id]
    · have hd : decide (r.id = u.id) = false := decide_eq_false h
      simp only [update, get, List.map_cons, List.find?_cons, if_neg h, hd]
        at ih ⊢
      exact ih

theorem update_snd_of_no_match (t : Table) (now : Nat) (u : UpdateItem)
    (h : ∀ r ∈ t, r.id ≠ u.id) : (update t now u).2 = t := by
  show t.map _ = t
  rw [List.map_congr_left fun r hr => if_neg (h r hr)]
  exact List.map_id t

/-- Claim C1: `findAllPaginated` reports `rowCount` equal to the number of
rows matching the filter before pagination, `pageCount` equal to
`ceil(rowCount / pageSize)` (characterized as the least `m` with
`rowCount ≤ pageSize * m`), and `data` equal to the rows at positions
`[(page-1)*pageSize, page*pageSize)` of the filtered set. -/
theorem findAllPaginated_correct (t : Table) (c : Cond) (page pageSize : Nat)
    (_hp : 1 ≤ page) (hs : 1 ≤ pageSize) :
    (findAllPaginated t page pageSize c).rowCount = (findBy t c).length ∧
    (∀ m, (findAllPaginated t page pageSize c).pageCount ≤ m ↔
      (findAllPaginated t page pageSize c).rowCount ≤ pageSize * m) ∧
    (findAllPaginated t page pageSize c).data.length ≤ pageSize ∧
    (∀ i, i < pageSize →
      (findAllPaginated t page pageSize c).data[i]? =
        (findBy t c)[(page - 1) * pageSize + i]?) := by
  refine ⟨rfl, ?_, ?_, ?_⟩
  · intro m
    have h : (findAllPaginated t page pageSize c).pageCount
        = (findAllPaginated t page pageSize c).rowCount ⌈/⌉ pageSize :=
      (Nat.ceilDiv_eq_add_pred_div _ _).symm
    rw [h, ceilDiv_le_iff_le_smul (Nat.lt_of_lt_of_le Nat.zero_lt_one hs),
      smul_eq_mul]
  · exact List.length_take_le _ _
  · intro i hi
    show (((t.filter c.matches).drop ((page - 1) * pageSize)).take pageSize)[i]?
      = _
    rw [List.getElem?_take, if_pos hi, List.getElem?_drop]
    rfl

/-- Concrete instantiation of `findAllPaginated_correct`. -/
theorem findAllPaginated_correct_witness :
    (findAllPaginated exTable 2 2 (Cond.exact [])).rowCount = 3 ∧
    (findAllPaginated exTable 2 2 (Cond.exact [])).data[0]? =
      (findBy exTable (Cond.exact []))[2]? := by
  have h := findAllPaginated_correct exTable (Cond.exact []) 2 2 (by decide)
    (by decide)
  refine ⟨?_, ?_⟩
  · rw [h.1]; decide
  · have h2 := h.2.2.2 0 (by decide)
    simpa using h2

/-- Claim C3: `update` and `delete` signal the "no result" error exactly
when no row with the given id exists, and leave the table unchanged in
that case; `get`, `findOneBy`, `findBy`, `findAll`, `findAllPaginated`,
`count` and `deleteBy` return an empty result or a not-found sentinel,
never an error, when nothing matches. -/
theorem noResult_error_iff (t : Table) (now : Nat) (u : UpdateItem)
    (i : String) (c : Cond) :
    ((update t now u).1 = none ↔ ∀ r ∈ t, r.id ≠ u.id) ∧
    ((update t now u).1 = none → (update t now u).2 = t) ∧
    ((delete t i).1 = none ↔ ∀ r ∈ t, r.id ≠ i) ∧
    ((delete t i).1 = none → (delete t i).2 = t) ∧
    ((∀ r ∈ t, c.matches r = false) →
      findBy t c = [] ∧ count t c = 0 ∧ findOneBy t c = none ∧
      (findAllPaginated t 1 10 c).data = [] ∧
      (deleteBy t c).1 = [] ∧ (deleteBy t c).2 = t ∧
      findAll (deleteBy t c).2 = findAll t) ∧
    (∀ j, (∀ r ∈ t, r.id ≠ j) → get t j = none) := by
  have hfilter : (∀ r ∈ t, c.matches r = false) → t.filter c.matches = [] := by
    intro hall
    rw [List.filter_eq_nil_iff]
    intro r hr
    simp [hall r hr]
  refine ⟨?_, ?_, ?_, ?_, ?_, ?_⟩
  · rw [update_fst_eq, Option.map_eq_none', get, List.find?_eq_none]
    simp
  · intro hnone
    apply update_snd_of_no_match
    rw [update_fst_eq, Option.map_eq_none', get, List.find?_eq_none] at hnone
    simpa using hnone
  · show (t.filter fun r => r.id = i).head? = none ↔ _
    rw [List.head?_eq_none_iff, List.filter_eq_nil_iff]
    simp
  · intro hnone
    have hnone' : (t.filter fun r => r.id = i).head? = none := hnone
    rw [List.head?_eq_none_iff, List.filter_eq_nil_iff] at hnone'
    show t.filter _ = t
    rw [List.filter_eq_self]
    intro r hr
    simpa using hnone' r hr
  · intro hall
    have h0 := hfilter hall
    refine ⟨h0, ?_, ?_, ?_, h0, ?_, ?_⟩
    · show (t.filter c.matches).length = 0
      rw [h0]; rfl
    · show (t.filter c.matches).head? = none
      rw [h0]; rfl
    · show ((t.filter c.matches).drop _).take _ = []
      rw [h0]; rfl
    · show t.filter _ = t
      rw [List.filter_eq_self]
      intro r hr
      simp [hall r hr]
    · show t.filter _ = t
      rw [List.filter_eq_self]
      intro r hr
      simp [hall r hr]
  · intro j hall
    rw [get, List.find?_eq_none]
    simpa using hall

/-- Concrete instantiation of `noResult_error_iff`. -/
theorem noResult_error_iff_witness :
    (update exTable 9 ⟨"zzz", []⟩).1 = none ∧
    (delete exTable "zzz").2 = exTable ∧
    get exTable "qqq" = none := by
  have h := noResult_error_iff exTable 9 ⟨"zzz", []⟩ "zzz"
    (Cond.exact [("name", "qq")])
  exact ⟨h.1.mpr (by decide), h.2.2.2.1 (h.2.2.1.mpr (by decide)),
    h.2.2.2.2.2 "qqq" (by decide)⟩

end KyselyRepo

namespace KyselyRepo

theorem pages_succ (r n : Nat) (hn : 0 < n) (hr : 0 < r) :
    (r + n - 1) / n = ((r - n) + n - 1) / n + 1 := by
  rcases le_or_lt r n with h | h
  · have h1 : r - n = 0 := Nat.sub_eq_zero_of_le h
    rw [h1, Nat.zero_add]
    have h2 : (n - 1) / n = 0 := Nat.div_eq_of_lt (Nat.sub_lt hn Nat.one_pos)
    rw [h2]
    apply Nat.div_eq_of_lt_le
    · rw [Nat.one_mul]
      omega
    · omega
  · have h1 : r + n - 1 = (r - 1) + n := by omega
    have h2 : (r - n) + n - 1 = (r - 1) := by omega
    rw [h1, h2, Nat.add_div_right _ hn]

theorem chunk_concat (n : Nat) (hn : 0 < n) :
    ∀ (fuel : Nat) (l : List Row), l.length ≤ fuel →
      (List.range ((l.length + n - 1) / n)).flatMap
        (fun i => (l.drop (i * n)).take n) = l := by
  intro fuel
  induction fuel with
  | zero =>
    intro l hl
    have : l = [] := List.eq_nil_of_length_eq_zero (Nat.le_zero.mp hl)
    subst this
    have h0 : (0 + n - 1) / n = 0 := Nat.div_eq_of_lt (by omega)
    simp [h0]
  | succ m ih =>
    intro l hl
    cases l with
    | nil =>
      have h0 : (0 + n - 1) / n = 0 := Nat.div_eq_of_lt (by omega)
      simp [h0]
    | cons a l' =>
      have hr : 0 < (a :: l').length := Nat.succ_pos _
      have hdl : ((a :: l').drop n).length = (a :: l').length - n := by
        rw [List.length_drop]
      rw [pages_succ _ n hn hr, List.range_succ_eq_map, List.flatMap_cons,
        List.flatMap_map]
      have hrest : ∀ i : Nat, (a :: l').drop (Nat.succ i * n) =
          ((a :: l').drop n).drop (i * n) := by
        intro i
        rw [List.drop_drop, Nat.succ_mul, Nat.add_comm (i * n) n]
      have hih := ih ((a :: l').drop n) (by
        rw [hdl]
        omega)
      rw [hdl] at hih
      calc (((a :: l').drop (0 * n)).take n) ++
            (List.range (((a :: l').length - n + n - 1) / n)).flatMap
              (fun i => ((a :: l').drop (Nat.succ i * n)).take n)
          = ((a :: l').take n) ++
            (List.range (((a :: l').length - n + n - 1) / n)).flatMap
              (fun i => (((a :: l').drop n).drop (i * n)).take n) := by
            rw [Nat.zero_mul, List.drop_zero]
            congr 1
            apply List.flatMap_congr
            intro i _
            rw [hrest i]
        _ = ((a :: l').take n) ++ (a :: l').drop n := by rw [hih]
        _ = a :: l' := List.take_append_drop _ _

/-- Claim C7: with page size `n` and `rowCount = R`, `findAllPaginated`
reports `pageCount = ceil(R / n)`, and concatenating the `data` of pages
`1` through `pageCount` (same filter and page size each time) reproduces
the full filtered set exactly — every filtered row once, no duplicates. -/
theorem paginate_pages_reproduce (t : Table) (c : Cond) (n : Nat)
    (hn : 1 ≤ n) :
    (findAllPaginated t 1 n c).pageCount = (findAllPaginated t 1 n c).rowCount ⌈/⌉ n ∧
    (List.range (findAllPaginated t 1 n c).pageCount).flatMap
      (fun i => (findAllPaginated t (i + 1) n c).data) = findBy t c := by
  constructor
  · exact (Nat.ceilDiv_eq_add_pred_div _ _).symm
  · have h := chunk_concat n hn (t.filter c.matches).length (t.filter c.matches)
      (Nat.le_refl _)
    calc (List.range (findAllPaginated t 1 n c).pageCount).flatMap
          (fun i => (findAllPaginated t (i + 1) n c).data)
        = (List.range (((t.filter c.matches).length + n - 1) / n)).flatMap
          (fun i => ((t.filter c.matches).drop (i * n)).take n) := by
          apply List.flatMap_congr
          intro i _
          show ((t.filter c.matches).drop ((i + 1 - 1) * n)).take n = _
          rw [Nat.add_sub_cancel]
      _ = t.filter c.matches := h
      _ = findBy t c := rfl

/-- Concrete instantiation of `paginate_pages_reproduce`. -/
theorem paginate_pages_reproduce_witness :
    (List.range (findAllPaginated exTable 1 2 (Cond.exact [])).pageCount).flatMap
      (fun i => (findAllPaginated exTable (i + 1) 2 (Cond.exact [])).data) =
      findBy exTable (Cond.exact []) :=
  (paginate_pages_reproduce exTable (Cond.exact []) 2 (by decide)).2

end KyselyRepo

namespace KyselyRepo

theorem mkRows_spec (now : Nat) :
    ∀ (gens : List String) (items : List InsertItem) (rs : List Row),
      mkRows now gens items = some rs →
      rs.length = items.length ∧
      rs.map Row.fields = items.map InsertItem.fields ∧
      (∀ r ∈ rs, r.createdAt = now ∧ r.updatedAt = now) ∧
      ((∀ it ∈ items, it.idField = IdField.absent) →
        rs.map Row.id = gens.take items.length) := by
  intro gens items
  induction items generalizing gens with
  | nil =>
    intro rs h
    cases gens <;> simp [mkRows] at h <;> subst h <;> simp
  | cons it its ih =>
    intro rs h
    cases gens with
    | nil => simp [mkRows] at h
    | cons g gs =>
      simp only [mkRows, Option.bind_eq_bind, Option.bind_eq_some] at h
      obtain ⟨r, hr, rs', hrs', hcons⟩ := h
      have hcons' : r :: rs' = rs := by simpa using hcons
      subst hcons'
      obtain ⟨hlen, hfields, htimes, hids⟩ := ih gs rs' hrs'
      have hrnow : r.createdAt = now ∧ r.updatedAt = now ∧
          r.fields = it.fields := by
        simp only [mkRow, Option.map_eq_some'] at hr
        obtain ⟨i, -, hi⟩ := hr
        subst hi
        exact ⟨rfl, rfl, rfl⟩
      refine ⟨?_, ?_, ?_, ?_⟩
      · simp [hlen]
      · simp [hrnow.2.2, hfields]
      · intro x hx
        rcases List.mem_cons.mp hx with hx | hx
        · subst hx; exact ⟨hrnow.1, hrnow.2.1⟩
        · exact htimes x hx
      · intro habs
        have hit : it.idField = IdField.absent :=
          habs it (List.mem_cons_self _ _)
        have hrid : r.id = g := by
          simp only [mkRow, hit, resolveId, Option.map_eq_some'] at hr
          obtain ⟨i, hi1, hi2⟩ := hr
          subst hi2
          simpa using hi1.symm
        have := hids fun x hx => habs x (List.mem_cons_of_mem _ hx)
        simp [hrid, this]

/-- Claim C5: a successful `insertAll` persists the batch appended in input
order (same field values, same order), gives every record in the batch the
identical `createdAt` and `updatedAt` — the single `now` of the call — and
(provided the UUID generator emits pairwise-distinct values, its contract)
the generated ids are pairwise distinct across the batch. -/
theorem insertAll_batch_spec (t : Table) (gens : List String) (now : Nat)
    (items : List InsertItem) (rs : List Row) (t' : Table)
    (h : insertAll t gens now items = some (rs, t')) :
    t' = t ++ rs ∧ rs.length = items.length ∧
    rs.map Row.fields = items.map InsertItem.fields ∧
    (∀ r ∈ rs, r.createdAt = now ∧ r.updatedAt = now) ∧
    (gens.Nodup → (∀ it ∈ items, it.idField = IdField.absent) →
      (rs.map Row.id).Nodup) := by
  simp only [insertAll, Option.map_eq_some'] at h
  obtain ⟨rs', hrs', heq⟩ := h
  have h1 : rs' = rs := congrArg Prod.fst heq
  have h2 : t ++ rs' = t' := congrArg Prod.snd heq
  obtain ⟨hlen, hfields, htimes, hids⟩ := mkRows_spec now gens items rs' hrs'
  subst h1
  refine ⟨h2.symm, hlen, hfields, htimes, ?_⟩
  intro hnodup habs
  rw [hids habs]
  exact (List.take_sublist _ _).nodup hnodup

/-- Concrete instantiation of `insertAll_batch_spec`. -/
theorem insertAll_batch_spec_witness :
    (([⟨"u1", 7, 7, [("v", "0")]⟩, ⟨"u2", 7, 7, [("v", "1")]⟩] : List Row).map
      Row.id).Nodup := by
  have h := insertAll_batch_spec [] ["u1", "u2"] 7
    [⟨IdField.absent, [("v", "0")]⟩, ⟨IdField.absent, [("v", "1")]⟩]
    [⟨"u1", 7, 7, [("v", "0")]⟩, ⟨"u2", 7, 7, [("v", "1")]⟩]
    [⟨"u1", 7, 7, [("v", "0")]⟩, ⟨"u2", 7, 7, [("v", "1")]⟩] (by decide)
  exact h.2.2.2.2 (by decide) (by decide)

end KyselyRepo

namespace KyselyRepo

theorem lookup_eq_none_iff (fs : List (String × String)) (k : String) :
    fs.lookup k = none ↔ ∀ kv ∈ fs, kv.1 ≠ k := by
  induction fs with
  | nil => simp
  | cons kv fs ih =>
    obtain ⟨k', v'⟩ := kv
    by_cases h : k = k'
    · subst h
      simp [List.lookup_cons]
    · simp only [List.lookup_cons, beq_false_of_ne h, List.mem_cons]
      constructor
      · intro h1 kv hkv
        rcases hkv with hkv | hkv
        · subst hkv
          simpa using Ne.symm h
        · exact (ih.mp h1) kv hkv
      · intro h1
        exact ih.mpr fun kv hkv => h1 kv (Or.inr hkv)

theorem lookup_eq_of_mem_of_nodup (fs : List (String × String)) (k v : String)
    (hnd : (fs.map Prod.fst).Nodup) (hmem : (k, v) ∈ fs) :
    fs.lookup k = some v := by
  induction fs with
  | nil => simp at hmem
  | cons kv fs ih =>
    obtain ⟨k', v'⟩ := kv
    rw [List.map_cons, List.nodup_cons] at hnd
    rcases List.mem_cons.mp hmem with heq | hmem2
    · obtain ⟨h1, h2⟩ := Prod.mk.injEq .. ▸ heq
      subst h1
      subst h2
      simp [List.lookup_cons]
    · by_cases h : k = k'
      · subst h
        exfalso
        apply hnd.1
        exact List.mem_map.mpr ⟨(k, v), hmem2, rfl⟩
      · simp only [List.lookup_cons, beq_false_of_ne h]
        exact ih hnd.2 hmem2

theorem lookup_append (l1 l2 : List (String × String)) (k : String) :
    (l1 ++ l2).lookup k = (l1.lookup k).or (l2.lookup k) := by
  induction l1 with
  | nil => simp
  | cons kv l1 ih =>
    obtain ⟨k', v'⟩ := kv
    by_cases h : k = k'
    · subst h
      simp [List.lookup_cons]
    · simp only [List.cons_append, List.lookup_cons, beq_false_of_ne h]
      exact ih

theorem mapped_lookup (fsU fsR : List (String × String)) (k : String) :
    (fsR.map fun p =>
      match fsU.lookup p.1 with
      | some v => (p.1, v)
      | none => p).lookup k
    = (fsR.lookup k).map fun old => (fsU.lookup k).getD old := by
  induction fsR with
  | nil => simp
  | cons p fsR ih =>
    obtain ⟨k', v'⟩ := p
    by_cases h : k = k'
    · subst h
      rcases hu : fsU.lookup k with _ | v <;>
        simp [List.lookup_cons, hu]
    · have hkey : (match fsU.lookup k' with
          | some v => (k', v)
          | none => (k', v')).1 = k' := by
        rcases fsU.lookup k' with _ | v <;> rfl
      rcases hu : fsU.lookup k' with _ | v <;>
        simp only [List.map_cons, hu, List.lookup_cons, beq_false_of_ne h] <;>
        exact ih

theorem lookup_filter_keep (fsU : List (String × String))
    (pred : String × String → Bool) (k : String)
    (hkeep : ∀ kv ∈ fsU, kv.1 = k → pred kv = true) :
    (fsU.filter pred).lookup k = fsU.lookup k := by
  induction fsU with
  | nil => simp
  | cons kv fs ih =>
    obtain ⟨k', v'⟩ := kv
    by_cases h : k = k'
    · subst h
      have hp : pred (k, v') = true := hkeep (k, v') (List.mem_cons_self _ _) rfl
      simp [List.filter_cons, hp, List.lookup_cons]
    · have ihx := ih fun kv hkv hk => hkeep kv (List.mem_cons_of_mem _ hkv) hk
      rcases hp : pred (k', v') with _ | _
      · rw [List.filter_cons, if_neg (by rw [hp]; simp), ihx]
        simp [List.lookup_cons, beq_false_of_ne h]
      · rw [List.filter_cons, if_pos (by rw [hp])]
        simp only [List.lookup_cons, beq_false_of_ne h]
        exact ihx

end KyselyRepo

namespace KyselyRepo

theorem updateRow_col_supplied (now : Nat) (u : UpdateItem) (r : Row)
    (k v : String) (hnd : (u.fields.map Prod.fst).Nodup)
    (hmem : (k, v) ∈ u.fields) (hk : k ≠ "id") :
    (updateRow now u r).col k = some v := by
  have hu : u.fields.lookup k = some v :=
    lookup_eq_of_mem_of_nodup _ _ _ hnd hmem
  simp only [Row.col, updateRow, if_neg hk]
  rw [lookup_append, mapped_lookup, hu]
  rcases hR : r.fields.lookup k with _ | old
  · rw [Option.map_none', Option.none_or, lookup_filter_keep]
    · exact hu
    · intro kv hkv hkk
      have hnone : ∀ p ∈ r.fields, p.1 ≠ kv.1 := by
        intro p hp
        rw [hkk]
        exact (lookup_eq_none_iff _ _).mp hR p hp
      simpa using hnone
  · simp

theorem updateRow_col_unsupplied (now : Nat) (u : UpdateItem) (r : Row)
    (k : String) (hk : ∀ kv ∈ u.fields, kv.1 ≠ k) (hkid : k ≠ "id") :
    (updateRow now u r).col k = r.col k := by
  have hu : u.fields.lookup k = none := (lookup_eq_none_iff _ _).mpr hk
  simp only [Row.col, updateRow, if_neg hkid]
  rw [lookup_append, mapped_lookup, hu]
  have hfil : (u.fields.filter fun kv =>
      ¬ r.fields.any fun p => p.1 = kv.1).lookup k = none := by
    rw [lookup_eq_none_iff]
    intro kv hkv
    exact hk kv (List.mem_filter.mp hkv).1
  rw [hfil, Option.or_none]
  cases r.fields.lookup k <;> rfl

/-- Claim C2: updating an existing record by its id returns (and persists)
a record with the same id and the same `createdAt`, with `updatedAt`
overwritten to the `now` of the update — strictly above the previous
`updatedAt` whenever the clock has advanced past it, and never taken from
the caller, whose `Update` type cannot carry timestamp fields — with every
supplied field set to the supplied value, and with unsupplied fields
unchanged. -/
theorem update_frame (t : Table) (now : Nat) (u : UpdateItem) (r : Row)
    (hget : get t u.id = some r)
    (hclock : r.updatedAt < now)
    (hnd : (u.fields.map Prod.fst).Nodup)
    (hnoid : ∀ kv ∈ u.fields, kv.1 ≠ "id") :
    (update t now u).1 = some (updateRow now u r) ∧
    get (update t now u).2 u.id = some (updateRow now u r) ∧
    (updateRow now u r).id = r.id ∧
    (updateRow now u r).createdAt = r.createdAt ∧
    (updateRow now u r).updatedAt = now ∧
    r.updatedAt < (updateRow now u r).updatedAt ∧
    (∀ kv ∈ u.fields, (updateRow now u r).col kv.1 = some kv.2) ∧
    (∀ k, k ≠ "id" → (∀ kv ∈ u.fields, kv.1 ≠ k) →
      (updateRow now u r).col k = r.col k) := by
  have hid : r.id = u.id := by
    have := List.find?_some hget
    simpa using this
  have h1 : (update t now u).1 = some (updateRow now u r) := by
    rw [update_fst_eq, hget, Option.map_some']
  have h2 : get (update t now u).2 u.id = (update t now u).1 := rfl
  refine ⟨h1, ?_, ?_, rfl, rfl, hclock, ?_, ?_⟩
  · rw [h2]
    exact h1
  · show u.id = r.id
    exact hid.symm
  · intro kv hkv
    exact updateRow_col_supplied now u r kv.1 kv.2 hnd hkv (hnoid kv hkv)
  · intro k hkid hk
    exact updateRow_col_unsupplied now u r k hk hkid

/-- Concrete instantiation of `update_frame`. -/
theorem update_frame_witness :
    (updateRow 9 ⟨"a", [("name", "bar")]⟩ ⟨"a", 1, 1, [("name", "foo")]⟩).col
      "name" = some "bar" ∧
    (updateRow 9 ⟨"a", [("name", "bar")]⟩
      ⟨"a", 1, 1, [("name", "foo")]⟩).createdAt = 1 := by
  have h := update_frame exTable 9 ⟨"a", [("name", "bar")]⟩
    ⟨"a", 1, 1, [("name", "foo")]⟩ (by decide) (by decide) (by decide)
    (by decide)
  exact ⟨h.2.2.2.2.2.2.1 ("name", "bar") (by decide), h.2.2.2.1⟩

end KyselyRepo
